import Mathlib

/-!
Verification of the archive-extraction and metadata-loading utilities of the
speech-analysis repository (`src/utils/file_utils.py`), shallowly embedded in
Lean.  Member names, file paths and table cells are modelled as `List Char`;
tar archives as lists of members; the filesystem produced by extraction as the
list of (path, content) writes with last-write-wins lookup.
-/

/-- `"validated.tsv"` as a character list. -/
def vtsvChars : List Char := "validated.tsv".toList

/-- `"clips"` as a character list. -/
def clipsChars : List Char := "clips".toList

/-- `"clips/"` as a character list. -/
def clipsSlashChars : List Char := "clips/".toList

/-- Python `str.endswith`: does `l` end with `pat`? -/
def endsWithL (pat l : List Char) : Bool := pat.isSuffixOf l

/-- Python `in` on strings: does `pat` occur as a contiguous substring of `l`? -/
def containsSub (pat : List Char) : List Char → Bool
  | [] => pat.isPrefixOf []
  | c :: cs => pat.isPrefixOf (c :: cs) || containsSub pat cs

/-- Python `os.path.basename`: the characters after the last `'/'`. -/
def basenameL (n : List Char) : List Char :=
  (n.reverse.takeWhile (fun c => !(c == '/'))).reverse

/-- Python `os.path.join a b` for a single right argument (posixpath
    semantics). -/
def osPathJoin (a b : List Char) : List Char :=
  if b.head? = some '/' then b
  else if a = [] then b
  else if a.getLast? = some '/' then a ++ b
  else a ++ '/' :: b

/-- The type recorded for a tar member; `tarfile`'s `TarInfo.isfile()` is true
    exactly for regular files (not directories, links, devices, ...). -/
inductive MemberType
  | regular
  | directory
  | symlink
  | hardlink
  | other
deriving DecidableEq

/-- One member of the tar archive: its recorded name, its type and (for
    regular files) its content. -/
structure TarMember where
  name : List Char
  mtype : MemberType
  content : List Nat
deriving DecidableEq

/-- `member.isfile()`. -/
def TarMember.isfile (m : TarMember) : Bool := m.mtype = MemberType.regular

/-- The destination-relative name under which
    `extract_validated_and_clips_from_tar` extracts a member, or `none` when
    the member is skipped.  Faithful to the loop body:
    regular files whose name ends with `"validated.tsv"` are renamed to
    `"validated.tsv"`; otherwise regular files whose name contains the
    substring `"clips/"` are renamed to
    `os.path.join("clips", os.path.basename(name))`; everything else is
    skipped. -/
def targetName (m : TarMember) : Option (List Char) :=
  if m.isfile then
    if endsWithL vtsvChars m.name then
      some vtsvChars
    else if containsSub clipsSlashChars m.name then
      some (osPathJoin clipsChars (basenameL m.name))
    else
      none
  else
    none

/-- The ordered list of (destination-relative path, content) writes performed
    by the extraction loop over the archive's members. -/
def extractTar (ms : List TarMember) : List (List Char × List Nat) :=
  ms.filterMap (fun m => (targetName m).map (fun p => (p, m.content)))

/-- The file found at destination-relative path `p` after extraction:
    the last write to `p` wins (later `tar.extract` calls overwrite earlier
    ones at the same path). -/
def finalFS (ms : List TarMember) (p : List Char) : Option (List Nat) :=
  (((extractTar ms).filter (fun w => w.1 == p)).getLast?).map (fun w => w.2)

/-- The extraction policies ("filters") available in Python's `tarfile`
    facility, modelled from the tarfile documentation: `fully_trusted`
    applies no sanitization at all, `tar` sanitizes some metadata, and
    `data` is the most restrictive, clamping member names into the
    destination directory. -/
inductive TarFilter
  | fullyTrusted
  | tarDefault
  | dataSafe
deriving DecidableEq

/-- Restrictiveness rank of a tarfile extraction policy (larger = more
    restrictive), from the tarfile documentation's ordering. -/
def TarFilter.rank : TarFilter → Nat
  | .fullyTrusted => 0
  | .tarDefault => 1
  | .dataSafe => 2

/-- The policy passed at both `tar.extract` call sites in
    `extract_validated_and_clips_from_tar`: `filter="fully_trusted"`. -/
def extractionFilter : TarFilter := TarFilter.fullyTrusted

/-- Result of running the whole procedure
    `extract_validated_and_clips_from_tar`: the writes performed, whether an
    exception was raised by some `tar.extract` call, and whether the final
    `os.remove(file_path)` executed. -/
structure RunResult where
  writes : List (List Char × List Nat)
  raised : Bool
  containerDeleted : Bool
deriving DecidableEq

/-- The whole procedure, with a failure oracle `fails` saying whether the
    `tar.extract` call for a given member raises (disk full, permissions,
    ...).  The loop body has no exception handling, and `os.remove` sits
    after the `with` block un-guarded, so a raise aborts the loop and skips
    the deletion; when the loop finishes, the container is removed. -/
def runExtractProc (fails : TarMember → Bool) : List TarMember → RunResult
  | [] => ⟨[], false, true⟩
  | m :: ms =>
    match targetName m with
    | none => runExtractProc fails ms
    | some p =>
      if fails m then ⟨[], true, false⟩
      else
        let r := runExtractProc fails ms
        ⟨(p, m.content) :: r.writes, r.raised, r.containerDeleted⟩

/-- Split a character list on a separator character (used for `'/'` path
    components and `'\t'` table cells). -/
def splitOnChar (sep : Char) : List Char → List (List Char)
  | [] => [[]]
  | c :: cs =>
    match splitOnChar sep cs with
    | [] => [[]]
    | s :: rest => if c = sep then [] :: s :: rest else (c :: s) :: rest

/-- Walk path components keeping track of the directory depth relative to the
    extraction root; `true` when a `".."` component climbs above the root. -/
def escapesFrom : List (List Char) → Nat → Bool
  | [], _ => false
  | c :: cs, d =>
    if c = "..".toList then
      match d with
      | 0 => true
      | Nat.succ d' => escapesFrom cs d'
    else if c = ".".toList ∨ c = [] then
      escapesFrom cs d
    else
      escapesFrom cs (d + 1)

/-- A destination-relative path escapes the destination directory when it is
    absolute or when resolving its `".."` components lexically climbs above
    the destination root. -/
def escapes (p : List Char) : Bool :=
  (p.head? == some '/') || escapesFrom (splitOnChar '/' p) 0

/-- Does a name contain `clips` as a (non-final) path segment, i.e. a whole
    `'/'`-separated component `"clips"` that is followed by `'/'`?  (The
    spec's "contains a `clips/` path segment".) -/
def hasClipsSegment (n : List Char) : Bool :=
  (splitOnChar '/' n).dropLast.contains clipsChars

/-- One row of the metadata table as `load_validated_data` holds it: the
    `path` cell and the `gender` cell, `none` standing for a missing value
    (pandas `NaN`). -/
structure Row where
  path : List Char
  gender : Option (List Char)
deriving DecidableEq

/-- The gender-collapsing lambda of `load_validated_data`:
    `'male' if x in ['male_masculine', 'male'] else
     'female' if x in ['female_feminine', 'female'] else None`. -/
def simplifyGender (x : List Char) : Option (List Char) :=
  if x = "male_masculine".toList ∨ x = "male".toList then
    some "male".toList
  else if x = "female_feminine".toList ∨ x = "female".toList then
    some "female".toList
  else
    none

/-- The category mapping in the words of the specification: `male` if the raw
    gender is `male` or `male_masculine`; `female` if it is `female` or
    `female_feminine`; undefined (not coerced to either) otherwise.  Stated
    from the spec, to be compared with the code's `simplifyGender`. -/
def categorySpec (g : List Char) : Option (List Char) :=
  if g = "male".toList ∨ g = "male_masculine".toList then
    some "male".toList
  else if g = "female".toList ∨ g = "female_feminine".toList then
    some "female".toList
  else
    none

/-- The in-memory stage of `load_validated_data` after parsing: drop rows
    whose `gender` is missing (`df[df['gender'].notna()]`), then apply the
    collapsing lambda to the `gender` column. -/
def processValidated (rows : List Row) : List Row :=
  (rows.filter (fun r => r.gender.isSome)).map
    (fun r => { path := r.path, gender := r.gender.bind simplifyGender })

/-- Index of the first column equal to `c` in a header, if any. -/
def colIndex (c : List Char) : List (List Char) → Option Nat
  | [] => none
  | h :: t => if h = c then some 0 else (colIndex c t).map (fun i => i + 1)

/-- A parsed cell of the `gender` column: pandas reads an empty field as
    missing (`NaN`).  Modelled from pandas' documented CSV semantics. -/
def parseGender (cell : List Char) : Option (List Char) :=
  if cell = [] then none else some cell

/-- `pd.read_csv(file_path, sep='\t', usecols=['path', 'gender'])`, modelled
    from pandas' documented behaviour over a file given as its list of lines:
    splits the header and every data line on tabs, locates the `path` and
    `gender` columns, and errors out (`ValueError`) when either required
    column is absent from the header. -/
def read_csv_tsv (lines : List (List Char)) : Except (List Char) (List Row) :=
  match lines with
  | [] => Except.error "No columns to parse from file".toList
  | hl :: dl =>
    match colIndex "path".toList (splitOnChar '\t' hl),
          colIndex "gender".toList (splitOnChar '\t' hl) with
    | some i, some j =>
      Except.ok (dl.map (fun l =>
        { path := (splitOnChar '\t' l).getD i []
          gender := parseGender ((splitOnChar '\t' l).getD j []) }))
    | _, _ => Except.error "Usecols do not match columns".toList

/-- The whole of `load_validated_data`: parse the TSV file, keep rows with a
    present `gender`, collapse the gender labels. -/
def load_validated_data (lines : List (List Char)) :
    Except (List Char) (List Row) :=
  (read_csv_tsv lines).map processValidated

/-- Members of the archive kept by the `validated.tsv` rule. -/
def validatedMatches (ms : List TarMember) : List TarMember :=
  ms.filter (fun m => m.isfile && endsWithL vtsvChars m.name)

/-- Members of the archive kept by the clips rule whose basename is `b`. -/
def clipsMatches (b : List Char) (ms : List TarMember) : List TarMember :=
  ms.filter (fun m =>
    m.isfile && !endsWithL vtsvChars m.name &&
    containsSub clipsSlashChars m.name && (basenameL m.name == b))

/-- Example member: a metadata file nested inside a language directory. -/
def mValidated : TarMember :=
  ⟨"en/validated.tsv".toList, MemberType.regular, [1, 2]⟩

/-- Example member: a clip nested two levels below `clips/`. -/
def mClipA : TarMember :=
  ⟨"en/clips/x/take1.mp3".toList, MemberType.regular, [3]⟩

/-- Example member: a different clip sharing the basename of `mClipA`. -/
def mClipB : TarMember :=
  ⟨"en/clips/y/take1.mp3".toList, MemberType.regular, [4]⟩

/-- Example member: a directory entry. -/
def mDirectory : TarMember :=
  ⟨"en/clips".toList, MemberType.directory, []⟩

/-- Example member: a regular file whose name contains the substring
    `clips/` but no `clips` path segment. -/
def mSneaky : TarMember :=
  ⟨"myclips/a.mp3".toList, MemberType.regular, [7]⟩

/-- Example member: an adversarial name full of `..` components. -/
def mTraversal : TarMember :=
  ⟨"en/clips/../../../etc/passwd".toList, MemberType.regular, [9]⟩

/-- Example member: a regular file matching neither extraction rule. -/
def mOther : TarMember :=
  ⟨"en/readme.txt".toList, MemberType.regular, [5]⟩

/-- Example member: a name matching both rules at once. -/
def mBoth : TarMember :=
  ⟨"en/clips/validated.tsv".toList, MemberType.regular, [6]⟩

lemma clipsChars_ne_nil : clipsChars ≠ [] := by decide

lemma clipsChars_getLast?_ne : clipsChars.getLast? ≠ some '/' := by decide

lemma clipsSlash_split : clipsSlashChars = clipsChars ++ ['/'] := by decide

lemma basenameL_no_slash (n : List Char) : '/' ∉ basenameL n := by
  intro h
  rw [basenameL, List.mem_reverse] at h
  have := List.mem_takeWhile_imp h
  simp at this

lemma osPathJoin_clips (b : List Char) (hb : '/' ∉ b) :
    osPathJoin clipsChars b = clipsSlashChars ++ b := by
  have hhead : b.head? ≠ some '/' := by
    cases b with
    | nil => simp
    | cons c cs =>
      intro h
      rw [List.head?_cons] at h
      injection h with h
      subst h
      exact hb (List.mem_cons_self _ _)
  rw [osPathJoin, if_neg hhead, if_neg clipsChars_ne_nil,
    if_neg clipsChars_getLast?_ne, clipsSlash_split]
  simp

lemma targetName_of_vtsv (m : TarMember) (hf : m.isfile = true)
    (he : endsWithL vtsvChars m.name = true) :
    targetName m = some vtsvChars := by
  simp [targetName, hf, he]

lemma targetName_of_clips (m : TarMember) (hf : m.isfile = true)
    (he : endsWithL vtsvChars m.name = false)
    (hc : containsSub clipsSlashChars m.name = true) :
    targetName m = some (clipsSlashChars ++ basenameL m.name) := by
  simp [targetName, hf, he, hc, osPathJoin_clips _ (basenameL_no_slash m.name)]

lemma targetName_skip (m : TarMember)
    (h : m.isfile = false ∨
      (endsWithL vtsvChars m.name = false ∧
        containsSub clipsSlashChars m.name = false)) :
    targetName m = none := by
  rcases h with h | ⟨h1, h2⟩
  · simp [targetName, h]
  · by_cases hf : m.isfile = true
    · simp [targetName, hf, h1, h2]
    · simp [targetName, Bool.not_eq_true m.isfile ▸ hf]

lemma clips_append_ne_vtsv (b : List Char) : clipsSlashChars ++ b ≠ vtsvChars := by
  intro h
  have h1 : clipsSlashChars = 'c' :: "lips/".toList := by decide
  have h2 : vtsvChars = 'v' :: "alidated.tsv".toList := by decide
  rw [h1, h2, List.cons_append] at h
  have := List.head_eq_of_cons_eq h
  exact absurd this (by decide)

lemma targetName_eq_vtsv_iff (m : TarMember) :
    targetName m = some vtsvChars ↔
      m.isfile = true ∧ endsWithL vtsvChars m.name = true := by
  constructor
  · intro h
    by_cases hf : m.isfile = true
    · by_cases he : endsWithL vtsvChars m.name = true
      · exact ⟨hf, he⟩
      · by_cases hc : containsSub clipsSlashChars m.name = true
        · rw [targetName_of_clips m hf (Bool.not_eq_true _ ▸ he) hc] at h
          exact absurd (Option.some.inj h) (clips_append_ne_vtsv _)
        · rw [targetName_skip m (Or.inr ⟨Bool.not_eq_true _ ▸ he,
            Bool.not_eq_true _ ▸ hc⟩)] at h
          exact absurd h (by simp)
    · rw [targetName_skip m (Or.inl (Bool.not_eq_true _ ▸ hf))] at h
      exact absurd h (by simp)
  · intro ⟨hf, he⟩
    exact targetName_of_vtsv m hf he

lemma targetName_eq_clips_iff (m : TarMember) (b : List Char) :
    targetName m = some (clipsSlashChars ++ b) ↔
      m.isfile = true ∧ endsWithL vtsvChars m.name = false ∧
        containsSub clipsSlashChars m.name = true ∧ basenameL m.name = b := by
  constructor
  · intro h
    by_cases hf : m.isfile = true
    · by_cases he : endsWithL vtsvChars m.name = true
      · rw [targetName_of_vtsv m hf he] at h
        exact absurd (Option.some.inj h).symm (clips_append_ne_vtsv _)
      · by_cases hc : containsSub clipsSlashChars m.name = true
        · rw [targetName_of_clips m hf (Bool.not_eq_true _ ▸ he) hc] at h
          exact ⟨hf, Bool.not_eq_true _ ▸ he, hc,
            List.append_cancel_left (Option.some.inj h)⟩
        · rw [targetName_skip m (Or.inr ⟨Bool.not_eq_true _ ▸ he,
            Bool.not_eq_true _ ▸ hc⟩)] at h
          exact absurd h (by simp)
    · rw [targetName_skip m (Or.inl (Bool.not_eq_true _ ▸ hf))] at h
      exact absurd h (by simp)
  · intro ⟨hf, he, hc, hb⟩
    rw [targetName_of_clips m hf he hc, hb]

lemma extract_filter_eq (ms : List TarMember) (p : List Char) :
    (extractTar ms).filter (fun w => w.1 == p) =
      (ms.filter (fun m => targetName m == some p)).map
        (fun m => (p, m.content)) := by
  induction ms with
  | nil => rfl
  | cons m ms ih =>
    simp only [extractTar] at ih ⊢
    rw [List.filterMap_cons]
    cases ht : targetName m with
    | none =>
      rw [List.filter_cons]
      simp only [ht]
      simp [ih]
    | some q =>
      simp only [Option.map_some']
      rw [List.filter_cons, List.filter_cons]
      by_cases hq : q = p
      · subst hq
        simp [ht, ih]
      · simp [ht, hq, ih]

lemma validatedMatches_eq (ms : List TarMember) :
    ms.filter (fun m => targetName m == some vtsvChars) = validatedMatches ms := by
  rw [validatedMatches]
  apply List.filter_congr
  intro m _
  rw [Bool.eq_iff_iff]
  simp [targetName_eq_vtsv_iff]

lemma clipsMatches_eq (ms : List TarMember) (b : List Char) :
    ms.filter (fun m => targetName m == some (clipsSlashChars ++ b)) =
      clipsMatches b ms := by
  rw [clipsMatches]
  apply List.filter_congr
  intro m _
  rw [Bool.eq_iff_iff]
  simp [targetName_eq_clips_iff, and_assoc]

lemma finalFS_vtsv (ms : List TarMember) :
    finalFS ms vtsvChars =
      ((validatedMatches ms).getLast?).map (fun m => m.content) := by
  rw [finalFS, extract_filter_eq, validatedMatches_eq, List.getLast?_map,
    Option.map_map]
  rfl

lemma finalFS_clips (ms : List TarMember) (b : List Char) :
    finalFS ms (clipsSlashChars ++ b) =
      ((clipsMatches b ms).getLast?).map (fun m => m.content) := by
  rw [finalFS, extract_filter_eq, clipsMatches_eq, List.getLast?_map,
    Option.map_map]
  rfl

lemma isPrefixOf_append_self (l t : List Char) : l.isPrefixOf (l ++ t) = true := by
  rw [List.isPrefixOf_iff_prefix]
  exact List.prefix_append l t

lemma clipsSlash_not_prefixOf_vtsv : clipsSlashChars.isPrefixOf vtsvChars = false := by
  decide

lemma length_clips_writes_le (ms : List TarMember) :
    ((extractTar ms).filter (fun w => clipsSlashChars.isPrefixOf w.1)).length ≤
      (ms.filter (fun m =>
        m.isfile && containsSub clipsSlashChars m.name)).length := by
  induction ms with
  | nil => simp [extractTar]
  | cons m ms ih =>
    simp only [extractTar] at ih ⊢
    rw [List.filterMap_cons, List.filter_cons]
    by_cases hf : m.isfile = true
    · by_cases he : endsWithL vtsvChars m.name = true
      · rw [targetName_of_vtsv m hf he]
        simp only [Option.map_some', List.filter_cons, clipsSlash_not_prefixOf_vtsv,
          Bool.false_eq_true, if_false]
        by_cases hc : containsSub clipsSlashChars m.name = true
        · simp only [hf, hc, Bool.and_self, if_true, List.length_cons]
          omega
        · simp only [hf, Bool.not_eq_true _ ▸ hc, Bool.and_false, Bool.true_and,
            Bool.false_eq_true, if_false]
          exact ih
      · by_cases hc : containsSub clipsSlashChars m.name = true
        · rw [targetName_of_clips m hf (Bool.not_eq_true _ ▸ he) hc]
          simp only [Option.map_some', List.filter_cons, isPrefixOf_append_self,
            if_true, List.length_cons, hf, hc, Bool.and_self, Bool.true_and]
          omega
        · rw [targetName_skip m (Or.inr ⟨Bool.not_eq_true _ ▸ he,
            Bool.not_eq_true _ ▸ hc⟩)]
          simp only [Option.map_none', hf, Bool.not_eq_true _ ▸ hc, Bool.and_false,
            Bool.true_and, Bool.false_eq_true, if_false]
          exact ih
    · rw [targetName_skip m (Or.inl (Bool.not_eq_true _ ▸ hf))]
      simp only [Option.map_none', Bool.not_eq_true _ ▸ hf, Bool.false_and,
        Bool.false_eq_true, if_false]
      exact ih

lemma dedup_clips_paths_le (ms : List TarMember) :
    (((extractTar ms).filter (fun w => clipsSlashChars.isPrefixOf w.1)).map
        (fun w => w.1)).dedup.length ≤
      (ms.filter (fun m =>
        m.isfile && containsSub clipsSlashChars m.name)).length := by
  refine le_trans (le_trans (List.Sublist.length_le (List.dedup_sublist _)) ?_)
    (length_clips_writes_le ms)
  rw [List.length_map]

lemma splitOnChar_ne_nil (sep : Char) (l : List Char) : splitOnChar sep l ≠ [] := by
  cases l with
  | nil => simp [splitOnChar]
  | cons c cs =>
    simp only [splitOnChar]
    cases splitOnChar sep cs with
    | nil => simp
    | cons s rest => by_cases h : c = sep <;> simp [h]

lemma splitOnChar_no_sep (sep : Char) (l : List Char) (h : sep ∉ l) :
    splitOnChar sep l = [l] := by
  induction l with
  | nil => rfl
  | cons c cs ih =>
    have hc : ¬ c = sep := by
      intro hh
      refine h ?_
      rw [← hh]
      exact List.mem_cons_self c cs
    have hcs : sep ∉ cs := fun hm => h (List.mem_cons_of_mem c hm)
    simp only [splitOnChar, ih hcs, if_neg hc]

lemma splitOnChar_cons_sep (sep : Char) (l : List Char) :
    splitOnChar sep (sep :: l) = [] :: splitOnChar sep l := by
  have hne := splitOnChar_ne_nil sep l
  cases hs : splitOnChar sep l with
  | nil => exact absurd hs hne
  | cons s rest => simp [splitOnChar, hs]

lemma splitOnChar_cons_of_ne (sep c : Char) (l : List Char) (h : ¬ c = sep) :
    splitOnChar sep (c :: l) =
      (c :: (splitOnChar sep l).headI) :: (splitOnChar sep l).tail := by
  have hne := splitOnChar_ne_nil sep l
  cases hs : splitOnChar sep l with
  | nil => exact absurd hs hne
  | cons s rest => simp [splitOnChar, hs, if_neg h]

lemma splitOnChar_clips_append (b : List Char) (hb : '/' ∉ b) :
    splitOnChar '/' (clipsSlashChars ++ b) = [clipsChars, b] := by
  have h1 : clipsSlashChars ++ b = 'c' :: 'l' :: 'i' :: 'p' :: 's' :: '/' :: b := by
    have h : clipsSlashChars = ['c', 'l', 'i', 'p', 's', '/'] := by decide
    rw [h]
    rfl
  rw [h1, splitOnChar_cons_of_ne _ _ _ (by decide),
    splitOnChar_cons_of_ne _ _ _ (by decide),
    splitOnChar_cons_of_ne _ _ _ (by decide),
    splitOnChar_cons_of_ne _ _ _ (by decide),
    splitOnChar_cons_of_ne _ _ _ (by decide),
    splitOnChar_cons_sep, splitOnChar_no_sep _ _ hb]
  have hc : clipsChars = ['c', 'l', 'i', 'p', 's'] := by decide
  rw [hc]
  rfl

lemma escapesFrom_singleton (b : List Char) : escapesFrom [b] 1 = false := by
  by_cases h1 : b = "..".toList
  · simp [escapesFrom, h1]
  · by_cases h2 : b = ".".toList ∨ b = []
    · simp [escapesFrom, h1, h2]
    · simp [escapesFrom, h1, h2]

lemma escapes_clips_append (b : List Char) (hb : '/' ∉ b) :
    escapes (clipsSlashChars ++ b) = false := by
  rw [escapes, splitOnChar_clips_append b hb]
  have h1 : clipsSlashChars ++ b = 'c' :: 'l' :: 'i' :: 'p' :: 's' :: '/' :: b := by
    have h : clipsSlashChars = ['c', 'l', 'i', 'p', 's', '/'] := by decide
    rw [h]
    rfl
  rw [h1, List.head?_cons]
  have h2 : escapesFrom [clipsChars, b] 0 = false := by
    have h3 : ¬ clipsChars = "..".toList := by decide
    have h4 : ¬ (clipsChars = ".".toList ∨ clipsChars = []) := by decide
    simp only [escapesFrom, if_neg h3, if_neg h4, Nat.zero_add]
    exact escapesFrom_singleton b
  simp [h2]

lemma escapes_vtsv : escapes vtsvChars = false := by decide

lemma targetName_shape (m : TarMember) (p : List Char)
    (h : targetName m = some p) :
    p = vtsvChars ∨ clipsSlashChars.isPrefixOf p = true := by
  by_cases hf : m.isfile = true
  · by_cases he : endsWithL vtsvChars m.name = true
    · rw [targetName_of_vtsv m hf he] at h
      exact Or.inl (Option.some.inj h).symm
    · by_cases hc : containsSub clipsSlashChars m.name = true
      · rw [targetName_of_clips m hf (Bool.not_eq_true _ ▸ he) hc] at h
        rw [← Option.some.inj h]
        exact Or.inr (isPrefixOf_append_self _ _)
      · rw [targetName_skip m (Or.inr ⟨Bool.not_eq_true _ ▸ he,
          Bool.not_eq_true _ ▸ hc⟩)] at h
        exact absurd h (by simp)
  · rw [targetName_skip m (Or.inl (Bool.not_eq_true _ ▸ hf))] at h
    exact absurd h (by simp)

lemma runExtractProc_no_fail (fails : TarMember → Bool) (ms : List TarMember)
    (h : ∀ m ∈ ms, fails m = false) :
    runExtractProc fails ms = ⟨extractTar ms, false, true⟩ := by
  induction ms with
  | nil => rfl
  | cons m ms ih =>
    have hm : fails m = false := h m (List.mem_cons_self m ms)
    have hms : ∀ m' ∈ ms, fails m' = false :=
      fun m' hm' => h m' (List.mem_cons_of_mem m hm')
    simp only [extractTar] at ih ⊢
    rw [runExtractProc, List.filterMap_cons]
    cases ht : targetName m with
    | none =>
      simp only [Option.map_none']
      exact ih hms
    | some p =>
      simp only [Option.map_some', hm, Bool.false_eq_true, if_false, ih hms]

lemma runExtractProc_deleted_iff (fails : TarMember → Bool) (ms : List TarMember) :
    (runExtractProc fails ms).containerDeleted = !(runExtractProc fails ms).raised := by
  induction ms with
  | nil => rfl
  | cons m ms ih =>
    rw [runExtractProc]
    cases ht : targetName m with
    | none => exact ih
    | some p =>
      by_cases hfm : fails m = true
      · simp only [hfm, if_true]
        rfl
      · have hf' : fails m = false := Bool.not_eq_true _ ▸ hfm
        simp only [hf', Bool.false_eq_true, if_false]
        exact ih

lemma simplifyGender_eq_categorySpec (g : List Char) :
    simplifyGender g = categorySpec g := by
  rw [simplifyGender, categorySpec]
  by_cases h1 : g = "male_masculine".toList ∨ g = "male".toList
  · rw [if_pos h1, if_pos (Or.symm h1)]
  · rw [if_neg h1, if_neg (fun h => h1 (Or.symm h))]
    by_cases h2 : g = "female_feminine".toList ∨ g = "female".toList
    · rw [if_pos h2, if_pos (Or.symm h2)]
    · rw [if_neg h2, if_neg (fun h => h2 (Or.symm h))]

lemma processValidated_append (rs1 rs2 : List Row) :
    processValidated (rs1 ++ rs2) =
      processValidated rs1 ++ processValidated rs2 := by
  rw [processValidated, List.filter_append, List.map_append]
  rfl

lemma colIndex_eq_none_iff (c : List Char) (l : List (List Char)) :
    colIndex c l = none ↔ c ∉ l := by
  induction l with
  | nil => simp [colIndex]
  | cons h t ih =>
    by_cases hh : h = c
    · simp [colIndex, hh]
    · simp only [colIndex, if_neg hh, Option.map_eq_none', ih, List.mem_cons]
      constructor
      · intro hn hor
        rcases hor with hor | hor
        · exact hh hor.symm
        · exact hn hor
      · intro hn hm
        exact hn (Or.inr hm)


/-- C1 (counterexample): the policy the code passes to the archive-reading
    facility at both `tar.extract` call sites is `fully_trusted`, which is
    strictly less restrictive than the `data` policy the facility also
    offers — so extraction does not use the most restrictive/trusted
    extraction policy available. -/
theorem extraction_policy_not_most_restrictive :
    TarFilter.rank extractionFilter < TarFilter.rank TarFilter.dataSafe ∧
      extractionFilter ≠ TarFilter.dataSafe := by
  decide

/-- C1 (amended): although the facility-level policy is `fully_trusted`
    (which itself sanitizes nothing), every member the code extracts has its
    name rewritten first, and the rewritten destination-relative path never
    escapes the destination directory — it is never absolute and never
    resolves above the extraction root, whatever the raw member name was. -/
theorem extract_never_escapes_destination (m : TarMember) (p : List Char)
    (h : targetName m = some p) : escapes p = false := by
  by_cases hf : m.isfile = true
  · by_cases he : endsWithL vtsvChars m.name = true
    · rw [targetName_of_vtsv m hf he] at h
      rw [← Option.some.inj h]
      exact escapes_vtsv
    · by_cases hc : containsSub clipsSlashChars m.name = true
      · rw [targetName_of_clips m hf (Bool.not_eq_true _ ▸ he) hc] at h
        rw [← Option.some.inj h]
        exact escapes_clips_append _ (basenameL_no_slash m.name)
      · rw [targetName_skip m (Or.inr ⟨Bool.not_eq_true _ ▸ he,
          Bool.not_eq_true _ ▸ hc⟩)] at h
        exact absurd h (by simp)
  · rw [targetName_skip m (Or.inl (Bool.not_eq_true _ ▸ hf))] at h
    exact absurd h (by simp)

/-- Witness for C1's amended theorem: the traversal-laden member
    `en/clips/../../../etc/passwd` is extracted at `clips/passwd`, which
    does not escape the destination. -/
theorem extract_never_escapes_destination_witness :
    targetName mTraversal = some "clips/passwd".toList ∧
      escapes "clips/passwd".toList = false :=
  ⟨by decide, extract_never_escapes_destination mTraversal
    "clips/passwd".toList (by decide)⟩

/-- C2 (counterexample): the regular file `myclips/a.mp3` has no `clips`
    path segment, yet the code extracts it under the `clips/` output
    directory — the code tests the substring `"clips/" in name`, not a path
    segment. -/
theorem clips_substring_without_segment_extracted :
    mSneaky.isfile = true ∧ hasClipsSegment mSneaky.name = false ∧
      targetName mSneaky = some "clips/a.mp3".toList := by
  decide

/-- C2 (amended): for a regular-file member not ending in `validated.tsv`,
    the member is rewritten to `clips/<basename>` (discarding all original
    subdirectories) exactly when its name contains the substring `clips/`;
    and any member extracted under the `clips/` output directory contains
    that substring. -/
theorem clips_rewrite_iff_substring (m : TarMember) (hf : m.isfile = true)
    (he : endsWithL vtsvChars m.name = false) :
    (containsSub clipsSlashChars m.name = true →
        targetName m = some (clipsSlashChars ++ basenameL m.name))
  ∧ (∀ p, targetName m = some p → clipsSlashChars.isPrefixOf p = true →
        containsSub clipsSlashChars m.name = true ∧
          p = clipsSlashChars ++ basenameL m.name) := by
  constructor
  · exact fun hc => targetName_of_clips m hf he hc
  · intro p hp _
    by_cases hc : containsSub clipsSlashChars m.name = true
    · rw [targetName_of_clips m hf he hc] at hp
      exact ⟨hc, (Option.some.inj hp).symm⟩
    · rw [targetName_skip m (Or.inr ⟨he, Bool.not_eq_true _ ▸ hc⟩)] at hp
      exact absurd hp (by simp)

/-- Witness for C2's amended theorem at the concrete member
    `en/clips/x/take1.mp3`. -/
theorem clips_rewrite_iff_substring_witness :
    targetName mClipA = some (clipsSlashChars ++ basenameL mClipA.name) :=
  (clips_rewrite_iff_substring mClipA (by decide) (by decide)).1 (by decide)

/-- C10: a regular-file member whose name both ends with `validated.tsv` and
    contains `clips/` is handled by the validated-metadata rule: it is
    extracted to `validated.tsv` and never under the `clips/` output
    directory. -/
theorem validated_rule_takes_precedence (m : TarMember) (hf : m.isfile = true)
    (he : endsWithL vtsvChars m.name = true)
    (_hc : containsSub clipsSlashChars m.name = true) :
    targetName m = some vtsvChars ∧
      ∀ p, targetName m = some p → clipsSlashChars.isPrefixOf p = false := by
  refine ⟨targetName_of_vtsv m hf he, ?_⟩
  intro p hp
  rw [targetName_of_vtsv m hf he] at hp
  rw [← Option.some.inj hp]
  exact clipsSlash_not_prefixOf_vtsv

/-- Witness for C10 at the concrete member `en/clips/validated.tsv`. -/
theorem validated_rule_takes_precedence_witness :
    targetName mBoth = some vtsvChars :=
  (validated_rule_takes_precedence mBoth (by decide) (by decide) (by decide)).1

/-- C3: a regular-file archive member whose name ends with the literal
    `validated.tsv` is renamed to exactly `validated.tsv`, and after
    extraction the single file at `destinationDirectory/validated.tsv`
    exists and holds the content of the (last such) matching member,
    regardless of the member's original path inside the archive. -/
theorem validated_extracted_to_fixed_location (ms : List TarMember)
    (m : TarMember) (hm : m ∈ ms) (hf : m.isfile = true)
    (he : endsWithL vtsvChars m.name = true) :
    targetName m = some vtsvChars ∧
      (finalFS ms vtsvChars).isSome = true ∧
      ∀ mlast, (validatedMatches ms).getLast? = some mlast →
        finalFS ms vtsvChars = some mlast.content := by
  refine ⟨targetName_of_vtsv m hf he, ?_, ?_⟩
  · rw [finalFS_vtsv, Option.isSome_map']
    have hmem : m ∈ validatedMatches ms := by
      rw [validatedMatches, List.mem_filter]
      refine ⟨hm, ?_⟩
      show (m.isfile && endsWithL vtsvChars m.name) = true
      rw [hf, he]
      rfl
    exact List.getLast?_isSome.mpr (List.ne_nil_of_mem hmem)
  · intro mlast hlast
    rw [finalFS_vtsv, hlast]
    rfl

/-- Witness for C3: an archive holding `en/validated.tsv` and a clip yields
    the content of `en/validated.tsv` at `validated.tsv`. -/
theorem validated_extracted_to_fixed_location_witness :
    finalFS [mValidated, mClipA] vtsvChars = some mValidated.content :=
  (validated_extracted_to_fixed_location [mValidated, mClipA] mValidated
    (by decide) (by decide) (by decide)).2.2 mValidated (by decide)

/-- C4: extraction writes at most as many distinct paths under the `clips/`
    output directory as there are regular-file members whose name includes
    `clips/`; and the file at `clips/<b>` holds the content of the
    last-processed clips-rule member with basename `b` — members sharing a
    basename collapse by silent overwrite, last one wins. -/
theorem clips_flattening_at_most_n_last_wins (ms : List TarMember)
    (b : List Char) :
    (((extractTar ms).filter (fun w => clipsSlashChars.isPrefixOf w.1)).map
        (fun w => w.1)).dedup.length ≤
      (ms.filter (fun m =>
        m.isfile && containsSub clipsSlashChars m.name)).length
  ∧ finalFS ms (clipsSlashChars ++ b) =
      ((clipsMatches b ms).getLast?).map (fun m => m.content) :=
  ⟨dedup_clips_paths_le ms, finalFS_clips ms b⟩

/-- C5 (counterexample): when the `tar.extract` call for the only
    extractable member raises, the exception propagates out of the loop and
    `os.remove(file_path)` is never reached — the container is not deleted
    even though a member extraction failed. -/
theorem deletion_skipped_on_member_failure :
    (runExtractProc (fun _ => true) [mClipA]).raised = true ∧
      (runExtractProc (fun _ => true) [mClipA]).containerDeleted = false := by
  decide

/-- C5 (amended): the deletion step after the extraction loop is not wrapped
    in any failure handling, so the container is deleted exactly when no
    member extraction raised; in particular a fully successful run performs
    all the extraction writes, raises nothing, and deletes the container,
    while a run in which some member extraction raised does not delete it. -/
theorem container_deletion_after_loop (fails : TarMember → Bool)
    (ms : List TarMember) :
    (runExtractProc fails ms).containerDeleted =
        !(runExtractProc fails ms).raised
  ∧ ((∀ m ∈ ms, fails m = false) →
      runExtractProc fails ms = ⟨extractTar ms, false, true⟩) :=
  ⟨runExtractProc_deleted_iff fails ms, runExtractProc_no_fail fails ms⟩

/-- Witness for C5's amended theorem: a failure-free run over a two-member
    archive deletes the container and performs exactly the extraction
    writes. -/
theorem container_deletion_after_loop_witness :
    runExtractProc (fun _ => false) [mValidated, mClipA] =
      ⟨extractTar [mValidated, mClipA], false, true⟩ :=
  (container_deletion_after_loop (fun _ => false) [mValidated, mClipA]).2
    (by decide)

/-- C9: members that are not regular files, and regular files matching
    neither the `validated.tsv` rule nor the clips rule, are skipped
    entirely (no write is performed for them), and every path extraction
    writes is either `validated.tsv` or lies under the `clips/` output
    directory. -/
theorem non_matching_members_skipped :
    (∀ m : TarMember,
        (m.isfile = false ∨
          (endsWithL vtsvChars m.name = false ∧
            containsSub clipsSlashChars m.name = false)) →
        targetName m = none)
  ∧ ∀ (ms : List TarMember) (w : List Char × List Nat), w ∈ extractTar ms →
      w.1 = vtsvChars ∨ clipsSlashChars.isPrefixOf w.1 = true := by
  constructor
  · exact targetName_skip
  · intro ms w hw
    rw [extractTar, List.mem_filterMap] at hw
    obtain ⟨m, _, hm⟩ := hw
    cases ht : targetName m with
    | none =>
      rw [ht, Option.map_none'] at hm
      exact absurd hm (by simp)
    | some p =>
      rw [ht, Option.map_some'] at hm
      rw [← Option.some.inj hm]
      exact targetName_shape m p ht

/-- Witness for C9: the directory member and the non-matching regular file
    are both skipped. -/
theorem non_matching_members_skipped_witness :
    targetName mDirectory = none ∧ targetName mOther = none :=
  ⟨non_matching_members_skipped.1 mDirectory (Or.inl (by decide)),
    non_matching_members_skipped.1 mOther (Or.inr ⟨by decide, by decide⟩)⟩

/-- C6: a row that survives the missing-label filter gets as derived
    category exactly the spec's mapping — `male` for raw `male` or
    `male_masculine`, `female` for raw `female` or `female_feminine`, and
    undefined (`none`, coerced to neither) for any other non-missing value. -/
theorem gender_category_mapping (pre post : List Row) (r : Row)
    (g : List Char) (hg : r.gender = some g) :
    processValidated (pre ++ r :: post) =
      processValidated pre ++
        { path := r.path, gender := categorySpec g } :: processValidated post := by
  rw [processValidated_append]
  congr 1
  rw [processValidated, List.filter_cons]
  have hsome : (fun rr : Row => rr.gender.isSome) r = true := by
    show r.gender.isSome = true
    rw [hg]
    rfl
  rw [if_pos hsome, List.map_cons]
  congr 1
  show ({ path := r.path, gender := r.gender.bind simplifyGender } : Row) = _
  rw [hg, Option.some_bind, simplifyGender_eq_categorySpec]

/-- Witness for C6: a surviving row with the unrecognized raw label `other`
    keeps its path and gets an undefined category. -/
theorem gender_category_mapping_witness :
    processValidated ([] ++ ⟨"d.mp3".toList, some "other".toList⟩ :: []) =
      processValidated [] ++
        { path := ("d.mp3" : String).toList,
          gender := categorySpec "other".toList } :: processValidated [] :=
  gender_category_mapping [] [] ⟨"d.mp3".toList, some "other".toList⟩
    "other".toList rfl

/-- C7: the loader's output rows are exactly the parsed rows whose raw
    gender is present, in their original order and keeping their `path`
    values; rows with a missing gender contribute nothing, and no surviving
    row is dropped (rows with an undefined derived category are retained). -/
theorem loader_output_exactly_nonmissing_rows (rows : List Row) :
    (processValidated rows).map (fun r => r.path) =
        (rows.filter (fun r => r.gender.isSome)).map (fun r => r.path)
  ∧ processValidated (rows.filter (fun r => r.gender.isSome)) =
      processValidated rows
  ∧ processValidated (rows.filter (fun r => !r.gender.isSome)) = []
  ∧ (processValidated rows).length =
      (rows.filter (fun r => r.gender.isSome)).length := by
  refine ⟨?_, ?_, ?_, ?_⟩
  · rw [processValidated, List.map_map]
    rfl
  · rw [processValidated, processValidated, List.filter_filter]
    congr 1
    exact List.filter_congr (fun r _ => Bool.and_self _)
  · rw [processValidated, List.filter_filter]
    rw [List.filter_congr
      (fun (r : Row) _ => Bool.and_not_self r.gender.isSome)]
    rw [List.filter_false]
    rfl
  · rw [processValidated, List.length_map]

/-- C8: the loader parses the file as tab-separated and builds each output
    row from the `path` and `gender` cells alone (other columns are not
    loaded); when either required column is missing from the header it
    fails with an error rather than succeeding. -/
theorem loader_tsv_projection_and_schema_error (hl : List Char)
    (dl : List (List Char)) :
    (("path".toList ∉ splitOnChar '\t' hl ∨
        "gender".toList ∉ splitOnChar '\t' hl) →
      ∃ e, read_csv_tsv (hl :: dl) = Except.error e)
  ∧ (∀ i j, colIndex "path".toList (splitOnChar '\t' hl) = some i →
      colIndex "gender".toList (splitOnChar '\t' hl) = some j →
      read_csv_tsv (hl :: dl) = Except.ok (dl.map (fun l =>
        { path := (splitOnChar '\t' l).getD i []
          gender := parseGender ((splitOnChar '\t' l).getD j []) }))) := by
  constructor
  · intro habs
    cases hp : colIndex "path".toList (splitOnChar '\t' hl) with
    | none =>
      refine ⟨"Usecols do not match columns".toList, ?_⟩
      rw [read_csv_tsv, hp]
    | some i =>
      cases hq : colIndex "gender".toList (splitOnChar '\t' hl) with
      | none =>
        refine ⟨"Usecols do not match columns".toList, ?_⟩
        rw [read_csv_tsv, hp, hq]
      | some j =>
        exfalso
        rcases habs with h | h
        · rw [← colIndex_eq_none_iff] at h
          rw [h] at hp
          exact absurd hp (by simp)
        · rw [← colIndex_eq_none_iff] at h
          rw [h] at hq
          exact absurd hq (by simp)
  · intro i j hi hj
    rw [read_csv_tsv, hi, hj]

/-- Witness for C8: a header lacking the `gender` column makes the loader
    error out. -/
theorem loader_tsv_projection_and_schema_error_witness :
    ∃ e, read_csv_tsv ["path\tage".toList, "a.mp3\t23".toList] =
      Except.error e :=
  (loader_tsv_projection_and_schema_error "path\tage".toList
    ["a.mp3\t23".toList]).1 (Or.inr (by decide))

/-- Witness for C4: two clips members sharing the basename `take1.mp3`
    collapse to a single file holding the later member's content. -/
theorem clips_flattening_at_most_n_last_wins_witness :
    finalFS [mClipA, mClipB] (clipsSlashChars ++ "take1.mp3".toList) =
      ((clipsMatches "take1.mp3".toList [mClipA, mClipB]).getLast?).map
        (fun m => m.content) :=
  (clips_flattening_at_most_n_last_wins [mClipA, mClipB] "take1.mp3".toList).2

/-- Witness for C7: on a two-row table whose second row has a missing
    gender, the output keeps exactly the first row's path. -/
theorem loader_output_exactly_nonmissing_rows_witness :
    (processValidated
        [⟨"a.mp3".toList, some "male".toList⟩, ⟨"c.mp3".toList, none⟩]).map
        (fun r => r.path) =
      (([⟨"a.mp3".toList, some "male".toList⟩, ⟨"c.mp3".toList, none⟩] :
          List Row).filter (fun r => r.gender.isSome)).map (fun r => r.path) :=
  (loader_output_exactly_nonmissing_rows
    [⟨"a.mp3".toList, some "male".toList⟩, ⟨"c.mp3".toList, none⟩]).1
